import Mathlib

/-!
# Verification of the `librarian` archive-extraction subsystem

Shallow embedding of the archive-extraction core of the `librarian` crate
(`src/lib.rs`, `src/zip.rs`, `src/tgz.rs`) and proofs of the specified
properties.

Modelling conventions:
* A filesystem path is a list of components (`List String`); the Rust
  `Path::join` is list append and `Path::parent` is `List.dropLast`
  (the source always takes the parent of a joined, non-empty path, where
  the two agree; `Path::parent().unwrap()` panics only on the empty path,
  which theorems exclude via a non-empty entry-name hypothesis).
* The filesystem is a pair of a directory list and an association list
  from file paths to file contents (`FS`).  `fs::create_dir_all` adds every
  non-empty prefix of a path to the directory list; `fs::File::create`
  followed by `io::copy` replaces the binding of the destination path.
  I/O is modelled as reliable (no spurious write errors), so operations on
  `FS` are total; the `Result`/`?` plumbing of the source only propagates
  such environmental errors and the zip-parse error, which are outside the
  model.  Process aborts (`panic!`, `expect`, `unwrap`) are modelled as
  `Option.none`, distinct from a typed `ExtractError` result.
* An archive entry (`rc_zip` entry, tar entry) is its relative path
  together with its kind: directory, regular file with byte content, or
  other (symlink etc.).  File content is modelled as an opaque `String` of
  bytes; extraction copies it verbatim, so no byte structure is needed.
-/

/-- Kind of an archive entry, mirroring `rc_zip::EntryContents`:
`Directory`, `File` (with its byte content), or the catch-all
(symlinks etc.) that `extract_zip` matches with `_ => {}`. -/
inductive EntryKind where
  | directory : EntryKind
  | regularFile : String → EntryKind
  | other : EntryKind
deriving DecidableEq

/-- One record of a container's index: the archive-internal relative path
(slash-separated in the source, component list here) and its kind. -/
structure Entry where
  name : List String
  kind : EntryKind
deriving DecidableEq

/-- The filesystem fragment an extraction call touches: the set of
directories that exist (as a list) and the regular files with their byte
contents (as an association list; later writes shadow nothing because
`writeFile` removes the old binding). -/
structure FS where
  dirs : List (List String)
  files : List (List String × String)
deriving DecidableEq

/-- Look a path up in a file association list (first binding wins). -/
def lookupFile : List (List String × String) → List String → Option String
  | [], _ => none
  | (q, c) :: rest, p => if q = p then some c else lookupFile rest p

/-- Remove every binding of a path from a file association list. -/
def removeFile : List (List String × String) → List String → List (List String × String)
  | [], _ => []
  | (q, c) :: rest, p =>
    if q = p then removeFile rest p else (q, c) :: removeFile rest p

/-- Byte content of the regular file at a path, if one exists. -/
def readFile (fs : FS) (p : List String) : Option String :=
  lookupFile fs.files p

/-- `fs::File::create` + `io::copy`: create or truncate the destination
file and write the entry's full content to it. -/
def writeFile (fs : FS) (p : List String) (c : String) : FS :=
  ⟨fs.dirs, (p, c) :: removeFile fs.files p⟩

/-- Create one directory if it does not already exist (one step of
`fs::create_dir_all`). -/
def mkdir (fs : FS) (p : List String) : FS :=
  if p ∈ fs.dirs then fs else ⟨fs.dirs ++ [p], fs.files⟩

/-- All non-empty prefixes of a path, shortest first: the ancestor chain
`fs::create_dir_all` creates. -/
def prefixesOf (p : List String) : List (List String) :=
  (List.range p.length).map (fun i => p.take (i + 1))

/-- `fs::create_dir_all`: create the directory and all missing
ancestors. -/
def createDirAll (fs : FS) (p : List String) : FS :=
  (prefixesOf p).foldl mkdir fs

/-- One iteration of the entry loop of `extract_zip` (src/zip.rs):
* `EntryContents::Directory(c)`: `create_dir_all(path.parent())` where
  `path = target.join(c.entry.name())`;
* `EntryContents::File(c)`: `create_dir_all(path.parent())`, then
  `File::create(path)` and `io::copy` of the entry's content;
* anything else (symlinks): no action. -/
def extractEntry (target : List String) (fs : FS) (e : Entry) : FS :=
  match e.kind with
  | .directory => createDirAll fs (target ++ e.name).dropLast
  | .regularFile c =>
    writeFile (createDirAll fs (target ++ e.name).dropLast) (target ++ e.name) c
  | .other => fs

/-- `extract_zip` (src/zip.rs): materialize the archive's entry sequence,
in index order, under the target root. -/
def extract_zip (target : List String) (entries : List Entry) (fs : FS) : FS :=
  entries.foldl (extractEntry target) fs

/-- The container formats `extract_archive` dispatches to. -/
inductive ArchiveFormat where
  | zip : ArchiveFormat
  | tarGz : ArchiveFormat
  | tar : ArchiveFormat
deriving DecidableEq

/-- Rust's `str::ends_with` with a string pattern: an exact,
case-sensitive suffix comparison of the character sequences. -/
def strEndsWith (s suffix : String) : Bool :=
  List.isSuffixOf suffix.data s.data

/-- The suffix dispatch of `extract_archive` (src/lib.rs, lines 87-109):
`ends_with(".zip")`, then `ends_with(".tar.gz") || ends_with(".tgz")`,
then `ends_with(".tar")`, in that order; `none` models the
`panic!("archive format not supported")` fall-through. -/
def selectFormat (fileName : String) : Option ArchiveFormat :=
  if strEndsWith fileName ".zip" then some .zip
  else if strEndsWith fileName ".tar.gz" || strEndsWith fileName ".tgz" then some .tarGz
  else if strEndsWith fileName ".tar" then some .tar
  else none

/-- The error taxonomy of src/lib.rs.  `zipError` wraps `rc_zip::Error`
and `writeError` wraps `std::io::Error`; both external error values are
modelled as their message strings. -/
inductive ExtractError where
  | zipError : String → ExtractError
  | writeError : String → ExtractError
deriving DecidableEq

/-- Modelled from the spec: `tar::Archive::unpack`, the external tar-crate
primitive that `extract_tar` and `extract_tar_gz` (src/tgz.rs) delegate
to in one call.  Its code is not part of this repository; per the spec it
performs a full recursive unpack into the target root preserving relative
paths, behaviorally identical to the zip path's materialization, so it is
modelled as the same per-entry tree materialization. -/
def tarUnpack (target : List String) (entries : List Entry) (fs : FS) : FS :=
  entries.foldl (extractEntry target) fs

/-- `extract_tar_gz` (src/tgz.rs): open the archive file, wrap it in a
`GzDecoder`, hand the decompressed byte stream to `tar::Archive::new`
and call `unpack(target)`.  The external gzip decoder and the tar
entry-index parser are abstracted as function parameters over raw byte
lists. -/
def extract_tar_gz (gzDecode : List Nat → List Nat)
    (tarIndex : List Nat → List Entry) (fileBytes : List Nat)
    (target : List String) (fs : FS) : FS :=
  tarUnpack target (tarIndex (gzDecode fileBytes)) fs

/-- `extract_tar` (src/tgz.rs): open the archive file, hand it directly to
`tar::Archive::new` and call `unpack(target)` (no decompressing
wrapper). -/
def extract_tar (tarIndex : List Nat → List Entry) (fileBytes : List Nat)
    (target : List String) (fs : FS) : FS :=
  tarUnpack target (tarIndex fileBytes) fs

/-- The archive argument of `extract_archive`: the `file_name()` component
of its path (`none` when the path has no file-name component, in which
case the source's `.unwrap()` panics) and the parsed entry sequence of
the container it denotes. -/
structure ArchiveInput where
  fileName : Option String
  entries : List Entry
deriving DecidableEq

/-- `extract_archive` (src/lib.rs, lines 76-110).  Steps, in source order:
1. resolve the target root: the explicit `target` argument if given,
   otherwise the `OUT_DIR` environment value (`outDir`); `expect` panics
   (`none`) when both are absent;
2. take the path's `file_name()` (`unwrap` panics when absent);
3. dispatch on the file-name suffix (`selectFormat`); an unrecognized
   suffix hits `panic!("archive format not supported")`;
4. run the selected extractor and return `Ok(target)`.
A `none` result models a process abort (panic), `some (.error e)` a typed
`ExtractError`, `some (.ok (root, fs))` success with the resolved target
root; in the reliable-I/O model the error case never arises. -/
def extract_archive (archive : ArchiveInput) (target : Option (List String))
    (outDir : Option (List String)) (fs : FS) :
    Option (Except ExtractError (List String × FS)) :=
  match (match target with | some t => some t | none => outDir) with
  | none => none
  | some root =>
    match archive.fileName with
    | none => none
    | some fileName =>
      match selectFormat fileName with
      | some .zip => some (.ok (root, extract_zip root archive.entries fs))
      | some .tarGz => some (.ok (root, tarUnpack root archive.entries fs))
      | some .tar => some (.ok (root, tarUnpack root archive.entries fs))
      | none => none

/-- The content the processing of one entry writes at a given destination
path, if any: `some c` exactly when the entry is a regular file whose
destination is that path. -/
def entryWrite (target : List String) (e : Entry) (q : List String) :
    Option String :=
  match e.kind with
  | .regularFile c => if target ++ e.name = q then some c else none
  | _ => none

/-- The content the materialization of an entry sequence leaves at a given
destination path, if any entry writes there: the write of the last
regular-file entry whose destination is that path. -/
def finalContent (target : List String) (q : List String) :
    List Entry → Option String
  | [] => none
  | e :: es =>
    match finalContent target q es with
    | some c => some c
    | none => entryWrite target e q

/-- The destination paths claimed by the regular-file entries of a
sequence, in sequence order. -/
def regularDests (target : List String) (entries : List Entry) :
    List (List String) :=
  entries.filterMap (fun e =>
    match e.kind with
    | .regularFile _ => some (target ++ e.name)
    | _ => none)

/-- The directories the processing of one entry creates: the non-empty
prefixes of the destination path's parent for directory and regular-file
entries, nothing for `other` entries. -/
def entryDirs (target : List String) (e : Entry) : List (List String) :=
  match e.kind with
  | .directory => prefixesOf (target ++ e.name).dropLast
  | .regularFile _ => prefixesOf (target ++ e.name).dropLast
  | .other => []

/-- Whether an entry is of a kind the materializer acts on (directory or
regular file, not `other`). -/
def isMaterialized (e : Entry) : Bool :=
  match e.kind with
  | .other => false
  | _ => true

/-- All non-empty ancestors of a path (including the path itself when it
is non-empty) exist as directories in the filesystem. -/
def ancestorsIn (fs : FS) (p : List String) : Prop :=
  ∀ q, q ≠ [] → q <+: p → q ∈ fs.dirs

theorem lookupFile_removeFile_self (l : List (List String × String))
    (p : List String) : lookupFile (removeFile l p) p = none := by
  induction l with
  | nil => rfl
  | cons hd tl ih =>
    obtain ⟨q, c⟩ := hd
    by_cases hq : q = p
    · simpa [removeFile, hq] using ih
    · simpa [removeFile, lookupFile, hq] using ih

theorem lookupFile_removeFile_ne (l : List (List String × String))
    (p q : List String) (h : q ≠ p) :
    lookupFile (removeFile l p) q = lookupFile l q := by
  induction l with
  | nil => rfl
  | cons hd tl ih =>
    obtain ⟨r, c⟩ := hd
    by_cases hr : r = p
    · have hrq : r ≠ q := by
        intro hrq
        exact h (hrq ▸ hr)
      simp [removeFile, lookupFile, hr, hrq, ih, Ne.symm h]
    · simp only [removeFile, hr, if_false, lookupFile]
      by_cases hrq : r = q <;> simp [hrq, ih]

theorem readFile_writeFile (fs : FS) (p q : List String) (c : String) :
    readFile (writeFile fs p c) q = if q = p then some c else readFile fs q := by
  by_cases hq : q = p
  · simp [readFile, writeFile, lookupFile, hq]
  · have : p ≠ q := fun h => hq h.symm
    simp [readFile, writeFile, lookupFile, this, hq,
      lookupFile_removeFile_ne fs.files p q hq]

theorem writeFile_dirs (fs : FS) (p : List String) (c : String) :
    (writeFile fs p c).dirs = fs.dirs := rfl

theorem mkdir_files (fs : FS) (p : List String) :
    (mkdir fs p).files = fs.files := by
  by_cases h : p ∈ fs.dirs <;> simp [mkdir, h]

theorem mkdir_dirs_mem (fs : FS) (p q : List String) :
    q ∈ (mkdir fs p).dirs ↔ q ∈ fs.dirs ∨ q = p := by
  by_cases h : p ∈ fs.dirs
  · simp only [mkdir, h, if_true]
    constructor
    · exact fun hq => Or.inl hq
    · rintro (hq | rfl) <;> assumption
  · simp [mkdir, h, List.mem_append]

theorem foldl_mkdir_files (l : List (List String)) (fs : FS) :
    (l.foldl mkdir fs).files = fs.files := by
  induction l generalizing fs with
  | nil => rfl
  | cons hd tl ih => simp [List.foldl_cons, ih, mkdir_files]

theorem foldl_mkdir_dirs_mem (l : List (List String)) (fs : FS)
    (q : List String) :
    q ∈ (l.foldl mkdir fs).dirs ↔ q ∈ fs.dirs ∨ q ∈ l := by
  induction l generalizing fs with
  | nil => simp
  | cons hd tl ih =>
    simp only [List.foldl_cons, ih, mkdir_dirs_mem, List.mem_cons]
    tauto

theorem prefixesOf_mem (p q : List String) :
    q ∈ prefixesOf p ↔ q ≠ [] ∧ q <+: p := by
  simp only [prefixesOf, List.mem_map, List.mem_range]
  constructor
  · rintro ⟨i, hi, rfl⟩
    refine ⟨?_, List.take_prefix _ _⟩
    have : (p.take (i + 1)).length = i + 1 := by
      rw [List.length_take]
      omega
    intro hnil
    rw [hnil] at this
    simp at this
  · rintro ⟨hne, hpre⟩
    have hlen : q.length ≤ p.length := hpre.length_le
    have hpos : 0 < q.length := List.length_pos.mpr hne
    refine ⟨q.length - 1, by omega, ?_⟩
    have : q.length - 1 + 1 = q.length := by omega
    rw [this, ← List.prefix_iff_eq_take.mp hpre]

theorem createDirAll_files (fs : FS) (p : List String) :
    (createDirAll fs p).files = fs.files :=
  foldl_mkdir_files _ _

theorem createDirAll_dirs_mem (fs : FS) (p q : List String) :
    q ∈ (createDirAll fs p).dirs ↔ q ∈ fs.dirs ∨ (q ≠ [] ∧ q <+: p) := by
  rw [createDirAll, foldl_mkdir_dirs_mem, prefixesOf_mem]

theorem readFile_createDirAll (fs : FS) (p q : List String) :
    readFile (createDirAll fs p) q = readFile fs q := by
  simp [readFile, createDirAll_files]

theorem extractEntry_read (target : List String) (fs : FS) (e : Entry)
    (q : List String) :
    readFile (extractEntry target fs e) q =
      match entryWrite target e q with
      | some c => some c
      | none => readFile fs q := by
  cases hk : e.kind with
  | directory => simp [extractEntry, entryWrite, hk, readFile_createDirAll]
  | other => simp [extractEntry, entryWrite, hk]
  | regularFile c =>
    simp only [extractEntry, entryWrite, hk, readFile_writeFile,
      readFile_createDirAll]
    by_cases hq : q = target ++ e.name
    · simp [hq]
    · have : target ++ e.name ≠ q := fun h => hq h.symm
      simp [hq, this]

theorem extractEntry_dirs_mem (target : List String) (fs : FS) (e : Entry)
    (q : List String) :
    q ∈ (extractEntry target fs e).dirs ↔
      q ∈ fs.dirs ∨ q ∈ entryDirs target e := by
  cases hk : e.kind with
  | directory =>
    simp [extractEntry, entryDirs, hk, createDirAll_dirs_mem, prefixesOf_mem]
  | regularFile c =>
    simp [extractEntry, entryDirs, hk, writeFile_dirs, createDirAll_dirs_mem,
      prefixesOf_mem]
  | other => simp [extractEntry, entryDirs, hk]

theorem extract_zip_read (target : List String) (entries : List Entry)
    (fs : FS) (q : List String) :
    readFile (extract_zip target entries fs) q =
      match finalContent target q entries with
      | some c => some c
      | none => readFile fs q := by
  induction entries generalizing fs with
  | nil => rfl
  | cons e es ih =>
    show readFile (extract_zip target es (extractEntry target fs e)) q = _
    rw [ih]
    simp only [finalContent]
    cases finalContent target q es with
    | some c => rfl
    | none => rw [extractEntry_read]

theorem extract_zip_dirs_mem (target : List String) (entries : List Entry)
    (fs : FS) (q : List String) :
    q ∈ (extract_zip target entries fs).dirs ↔
      q ∈ fs.dirs ∨ ∃ e, e ∈ entries ∧ q ∈ entryDirs target e := by
  induction entries generalizing fs with
  | nil => simp [extract_zip]
  | cons e es ih =>
    show q ∈ (extract_zip target es (extractEntry target fs e)).dirs ↔ _
    rw [ih, extractEntry_dirs_mem]
    constructor
    · rintro ((h | h) | ⟨e2, he2, h⟩)
      · exact Or.inl h
      · exact Or.inr ⟨e, List.mem_cons_self e es, h⟩
      · exact Or.inr ⟨e2, List.mem_cons_of_mem e he2, h⟩
    · rintro (h | ⟨e2, he2, h⟩)
      · exact Or.inl (Or.inl h)
      · rcases List.mem_cons.mp he2 with rfl | he2
        · exact Or.inl (Or.inr h)
        · exact Or.inr ⟨e2, he2, h⟩

theorem finalContent_mem_regularDests (target q : List String)
    (entries : List Entry) (c : String)
    (h : finalContent target q entries = some c) :
    q ∈ regularDests target entries := by
  induction entries with
  | nil => simp [finalContent] at h
  | cons e es ih =>
    simp only [finalContent] at h
    cases hfc : finalContent target q es with
    | some c2 =>
      have := ih (by rw [hfc]; rw [hfc] at h; exact h)
      simp only [regularDests, List.filterMap_cons] at this ⊢
      cases hk : e.kind <;> simp only [hk] <;>
        first
          | exact this
          | exact List.mem_cons_of_mem _ this
    | none =>
      rw [hfc] at h
      simp only [entryWrite] at h
      cases hk : e.kind with
      | regularFile c2 =>
        rw [hk] at h
        by_cases hq : target ++ e.name = q
        · simp only [regularDests, List.filterMap_cons, hk, hq]
          exact List.mem_cons_self _ _
        · simp [hq] at h
      | directory => rw [hk] at h; simp at h
      | other => rw [hk] at h; simp at h

theorem regularDests_finalContent (target q : List String)
    (entries : List Entry) (h : q ∈ regularDests target entries) :
    ∃ c, finalContent target q entries = some c := by
  induction entries with
  | nil => simp [regularDests] at h
  | cons e es ih =>
    simp only [finalContent]
    cases hfc : finalContent target q es with
    | some c => exact ⟨c, rfl⟩
    | none =>
      simp only [regularDests, List.filterMap_cons] at h
      cases hk : e.kind with
      | regularFile c =>
        rw [hk] at h
        rcases List.mem_cons.mp h with rfl | hmem
        · exact ⟨c, by simp [entryWrite, hk]⟩
        · obtain ⟨c2, hc2⟩ := ih hmem
          rw [hc2] at hfc
          exact absurd hfc (by simp)
      | directory =>
        rw [hk] at h
        obtain ⟨c2, hc2⟩ := ih h
        rw [hc2] at hfc
        exact absurd hfc (by simp)
      | other =>
        rw [hk] at h
        obtain ⟨c2, hc2⟩ := ih h
        rw [hc2] at hfc
        exact absurd hfc (by simp)

theorem regularDests_cons (target : List String) (e : Entry)
    (es : List Entry) :
    regularDests target (e :: es) =
      match e.kind with
      | .regularFile _ => (target ++ e.name) :: regularDests target es
      | _ => regularDests target es := by
  cases hk : e.kind <;> simp [regularDests, List.filterMap_cons, hk]

theorem regularDests_nodup_tail (target : List String) (e : Entry)
    (es : List Entry) (h : (regularDests target (e :: es)).Nodup) :
    (regularDests target es).Nodup := by
  rw [regularDests_cons] at h
  cases hk : e.kind with
  | regularFile c => rw [hk] at h; exact h.of_cons
  | directory => rw [hk] at h; exact h
  | other => rw [hk] at h; exact h

theorem finalContent_of_mem_nodup (target : List String)
    (entries : List Entry) (e : Entry) (c : String)
    (hnd : (regularDests target entries).Nodup)
    (hmem : e ∈ entries) (hk : e.kind = .regularFile c) :
    finalContent target (target ++ e.name) entries = some c := by
  induction entries with
  | nil => simp at hmem
  | cons e2 es ih =>
    rcases List.mem_cons.mp hmem with rfl | hmem2
    · simp only [finalContent]
      cases hfc : finalContent target (target ++ e.name) es with
      | some c2 =>
        exfalso
        have hin := finalContent_mem_regularDests _ _ _ _ hfc
        rw [regularDests_cons, hk] at hnd
        exact (List.nodup_cons.mp hnd).1 hin
      | none => simp [entryWrite, hk]
    · simp only [finalContent]
      rw [ih (regularDests_nodup_tail _ _ _ hnd) hmem2]

theorem extractEntry_other (target : List String) (fs : FS) (e : Entry)
    (h : e.kind = .other) : extractEntry target fs e = fs := by
  simp [extractEntry, h]

theorem extract_zip_filter_materialized (target : List String)
    (entries : List Entry) (fs : FS) :
    extract_zip target (entries.filter isMaterialized) fs =
      extract_zip target entries fs := by
  induction entries generalizing fs with
  | nil => rfl
  | cons e es ih =>
    by_cases hm : isMaterialized e
    · rw [List.filter_cons_of_pos hm]
      show extract_zip target (es.filter isMaterialized)
          (extractEntry target fs e) = _
      rw [ih]
      rfl
    · have hk : e.kind = .other := by
        cases hke : e.kind <;> simp [isMaterialized, hke] at hm ⊢
      rw [List.filter_cons_of_neg hm]
      show extract_zip target (es.filter isMaterialized) fs = _
      rw [ih]
      show extract_zip target es fs =
        extract_zip target es (extractEntry target fs e)
      rw [extractEntry_other target fs e hk]

theorem extract_zip_decompose (target : List String) (entries : List Entry)
    (fs : FS) (i : Nat) (h : i < entries.length) :
    extract_zip target entries fs =
      extract_zip target (entries.drop (i + 1))
        (extractEntry target (extract_zip target (entries.take i) fs)
          (entries.get ⟨i, h⟩)) := by
  conv_lhs => rw [← List.take_append_drop i entries]
  show ((entries.take i ++ entries.drop i).foldl (extractEntry target) fs) = _
  rw [List.foldl_append, ← List.getElem_cons_drop entries i h]
  rfl

/-- C1: For every entry of kind `RegularFile` in the entry sequence of a
zip archive (whose central directory claims each destination path at most
once, expressed by the `Nodup` hypothesis), extraction writes a file at
the target root joined with the entry's relative path whose byte content
equals the entry's original content exactly; and concretely, extracting a
zip fixture containing the single file `zip/compressed.txt` with content
"it works!" into target `T` over an empty filesystem yields exactly the
file `T/zip/compressed.txt` with that content (and only the ancestor
directories `T`, `T/zip`) and nothing else under `T`. -/
theorem extract_zip_roundtrip_exact :
    (∀ (target : List String) (entries : List Entry) (fs : FS),
        (regularDests target entries).Nodup →
        ∀ e ∈ entries, ∀ c : String, e.kind = .regularFile c →
          readFile (extract_zip target entries fs) (target ++ e.name) = some c)
    ∧ extract_zip ["T"]
          [⟨["zip", "compressed.txt"], .regularFile "it works!"⟩] ⟨[], []⟩ =
        ⟨[["T"], ["T", "zip"]],
          [(["T", "zip", "compressed.txt"], "it works!")]⟩ := by
  constructor
  · intro target entries fs hnd e hmem c hk
    rw [extract_zip_read,
      finalContent_of_mem_nodup target entries e c hnd hmem hk]
  · rfl

/-- Witness for C1: the round-trip theorem applied to the concrete
one-file fixture. -/
theorem extract_zip_roundtrip_exact_witness :
    readFile
        (extract_zip ["T"]
          [⟨["zip", "compressed.txt"], .regularFile "it works!"⟩] ⟨[], []⟩)
        (["T"] ++ ["zip", "compressed.txt"]) = some "it works!" :=
  extract_zip_roundtrip_exact.1 ["T"]
    [⟨["zip", "compressed.txt"], .regularFile "it works!"⟩] ⟨[], []⟩
    (by decide) ⟨["zip", "compressed.txt"], .regularFile "it works!"⟩
    (List.mem_singleton.mpr rfl) "it works!" rfl

/-- C2: For every `RegularFile` entry at any position `i` of the entry
sequence, in any order of entries, the extraction run decomposes into the
run over the first `i` entries, the processing of entry `i`, and the run
over the rest; the processing of entry `i` is exactly a write of the
entry's content to the destination path performed from the intermediate
state obtained by `create_dir_all` on the destination's parent; and in
that intermediate state — i.e. before the file's content is written — the
full ancestor directory chain of the destination path exists. -/
theorem extract_zip_parents_before_write :
    ∀ (target : List String) (entries : List Entry) (fs0 : FS) (i : Nat)
      (h : i < entries.length) (c : String),
      (entries.get ⟨i, h⟩).kind = .regularFile c →
      extract_zip target entries fs0 =
          extract_zip target (entries.drop (i + 1))
            (extractEntry target (extract_zip target (entries.take i) fs0)
              (entries.get ⟨i, h⟩))
        ∧ extractEntry target (extract_zip target (entries.take i) fs0)
              (entries.get ⟨i, h⟩) =
            writeFile
              (createDirAll (extract_zip target (entries.take i) fs0)
                (target ++ (entries.get ⟨i, h⟩).name).dropLast)
              (target ++ (entries.get ⟨i, h⟩).name) c
        ∧ ancestorsIn
            (createDirAll (extract_zip target (entries.take i) fs0)
              (target ++ (entries.get ⟨i, h⟩).name).dropLast)
            (target ++ (entries.get ⟨i, h⟩).name).dropLast := by
  intro target entries fs0 i h c hk
  refine ⟨extract_zip_decompose target entries fs0 i h, ?_, ?_⟩
  · simp only [extractEntry]
    rw [hk]
  · intro q hne hpre
    rw [createDirAll_dirs_mem]
    exact Or.inr ⟨hne, hpre⟩

/-- Witness for C2: the before-write invariant at a concrete one-entry
sequence holding the file `d/f.txt`. -/
theorem extract_zip_parents_before_write_witness :
    extract_zip ["T"] [⟨["d", "f.txt"], .regularFile "x"⟩] ⟨[], []⟩ =
        extract_zip ["T"] []
          (extractEntry ["T"] (extract_zip ["T"] [] ⟨[], []⟩)
            ⟨["d", "f.txt"], .regularFile "x"⟩)
      ∧ extractEntry ["T"] (extract_zip ["T"] [] ⟨[], []⟩)
            ⟨["d", "f.txt"], .regularFile "x"⟩ =
          writeFile (createDirAll (extract_zip ["T"] [] ⟨[], []⟩) ["T", "d"])
            ["T", "d", "f.txt"] "x"
      ∧ ancestorsIn (createDirAll (extract_zip ["T"] [] ⟨[], []⟩) ["T", "d"])
          ["T", "d"] :=
  extract_zip_parents_before_write ["T"]
    [⟨["d", "f.txt"], .regularFile "x"⟩] ⟨[], []⟩ 0 (by decide) "x" rfl

/-- C3: For every file name, the format dispatcher selects the container
variant by the file name's suffix alone, case-sensitively, in the
precedence `.zip`, then `.tar.gz`/`.tgz`, then `.tar`, taking the first
suffix that matches and falling through to the unsupported-format stop
when none matches; upper-cased suffixes do not match. -/
theorem selectFormat_suffix_precedence :
    (∀ fileName : String,
      (strEndsWith fileName ".zip" = true →
          selectFormat fileName = some .zip)
      ∧ (strEndsWith fileName ".zip" = false →
          strEndsWith fileName ".tar.gz" = true ∨
            strEndsWith fileName ".tgz" = true →
          selectFormat fileName = some .tarGz)
      ∧ (strEndsWith fileName ".zip" = false →
          strEndsWith fileName ".tar.gz" = false →
          strEndsWith fileName ".tgz" = false →
          strEndsWith fileName ".tar" = true →
          selectFormat fileName = some .tar)
      ∧ (strEndsWith fileName ".zip" = false →
          strEndsWith fileName ".tar.gz" = false →
          strEndsWith fileName ".tgz" = false →
          strEndsWith fileName ".tar" = false →
          selectFormat fileName = none))
    ∧ selectFormat "file.ZIP" = none
    ∧ selectFormat "file.Tar" = none := by
  refine ⟨fun fileName => ⟨?_, ?_, ?_, ?_⟩, by decide, by decide⟩
  · intro h1
    simp [selectFormat, h1]
  · rintro h1 (h2 | h2) <;> simp [selectFormat, h1, h2]
  · intro h1 h2 h3 h4
    simp [selectFormat, h1, h2, h3, h4]
  · intro h1 h2 h3 h4
    simp [selectFormat, h1, h2, h3, h4]

/-- Witness for C3: the dispatcher at the concrete file names
`lib.zip`, `lib.tar.gz`, `lib.tgz`, `lib.tar`. -/
theorem selectFormat_suffix_precedence_witness :
    selectFormat "lib.zip" = some .zip
      ∧ selectFormat "lib.tar.gz" = some .tarGz
      ∧ selectFormat "lib.tgz" = some .tarGz
      ∧ selectFormat "lib.tar" = some .tar :=
  ⟨(selectFormat_suffix_precedence.1 "lib.zip").1 (by decide),
    (selectFormat_suffix_precedence.1 "lib.tar.gz").2.1 (by decide)
      (Or.inl (by decide)),
    (selectFormat_suffix_precedence.1 "lib.tgz").2.1 (by decide)
      (Or.inr (by decide)),
    (selectFormat_suffix_precedence.1 "lib.tar").2.2.1 (by decide)
      (by decide) (by decide) (by decide)⟩

/-- C4: For every archive whose file name matches none of the suffixes
`.zip`, `.tar.gz`, `.tgz`, `.tar`, the extraction call hits the
unconditional `panic!("archive format not supported")` — modelled as the
`none` result, distinct from every typed `some (.error _)` outcome — and
no filesystem state is produced: the dispatch precedes any directory
creation or file write, so the target root is untouched. -/
theorem extract_archive_unsupported_suffix_stops :
    ∀ (archive : ArchiveInput) (target outDir : Option (List String))
      (fs : FS) (fileName : String),
      archive.fileName = some fileName →
      strEndsWith fileName ".zip" = false →
      strEndsWith fileName ".tar.gz" = false →
      strEndsWith fileName ".tgz" = false →
      strEndsWith fileName ".tar" = false →
      extract_archive archive target outDir fs = none := by
  intro a target outDir fs fn hfn h1 h2 h3 h4
  have hsel : selectFormat fn = none := by
    simp [selectFormat, h1, h2, h3, h4]
  cases target with
  | some t => simp [extract_archive, hfn, hsel]
  | none =>
    cases outDir with
    | some d => simp [extract_archive, hfn, hsel]
    | none => rfl

/-- Witness for C4: a `.rar` archive with an explicit target hard-stops. -/
theorem extract_archive_unsupported_suffix_stops_witness :
    extract_archive ⟨some "file.rar", []⟩ (some ["T"]) none ⟨[], []⟩ = none :=
  extract_archive_unsupported_suffix_stops ⟨some "file.rar", []⟩
    (some ["T"]) none ⟨[], []⟩ "file.rar" rfl (by decide) (by decide)
    (by decide) (by decide)

/-- C9: The extraction façade resolves the target root to the explicit
target argument when one is given, otherwise to the externally supplied
`OUT_DIR` value; when both are absent the `expect` hard-stops (`none`);
and every successful call returns exactly the resolved target root. -/
theorem extract_archive_target_resolution :
    (∀ (archive : ArchiveInput) (outDir : Option (List String)) (fs : FS)
        (t : List String) (r : List String × FS),
        extract_archive archive (some t) outDir fs = some (.ok r) → r.1 = t)
    ∧ (∀ (archive : ArchiveInput) (fs : FS) (d : List String)
        (r : List String × FS),
        extract_archive archive none (some d) fs = some (.ok r) → r.1 = d)
    ∧ (∀ (archive : ArchiveInput) (fs : FS),
        extract_archive archive none none fs = none) := by
  refine ⟨?_, ?_, fun a fs => rfl⟩
  · intro a o fs t r h
    simp only [extract_archive] at h
    split at h
    · cases h
    · split at h <;>
        first
          | (rw [Option.some.injEq, Except.ok.injEq] at h; subst h; rfl)
          | cases h
  · intro a fs d r h
    simp only [extract_archive] at h
    split at h
    · cases h
    · split at h <;>
        first
          | (rw [Option.some.injEq, Except.ok.injEq] at h; subst h; rfl)
          | cases h

/-- Witness for C9: a concrete successful zip extraction returns the
explicit target, another returns the `OUT_DIR`-derived target. -/
theorem extract_archive_target_resolution_witness :
    extract_archive ⟨some "f.zip", [⟨["a"], .regularFile "x"⟩]⟩
        (some ["T"]) none ⟨[], []⟩ =
      some (.ok (["T"], extract_zip ["T"] [⟨["a"], .regularFile "x"⟩] ⟨[], []⟩))
    ∧ (["T"], extract_zip ["T"] [⟨["a"], .regularFile "x"⟩] ⟨[], []⟩).1 = ["T"]
    ∧ (["D"], extract_zip ["D"] [⟨["a"], .regularFile "x"⟩] ⟨[], []⟩).1 = ["D"] :=
  ⟨rfl,
    extract_archive_target_resolution.1
      ⟨some "f.zip", [⟨["a"], .regularFile "x"⟩]⟩ none ⟨[], []⟩ ["T"]
      (["T"], extract_zip ["T"] [⟨["a"], .regularFile "x"⟩] ⟨[], []⟩) rfl,
    extract_archive_target_resolution.2.1
      ⟨some "f.zip", [⟨["a"], .regularFile "x"⟩]⟩ ⟨[], []⟩ ["D"]
      (["D"], extract_zip ["D"] [⟨["a"], .regularFile "x"⟩] ⟨[], []⟩) rfl⟩

/-- C10: With an explicit target directory the façade never consults the
`OUT_DIR` environment value: its result — return value and filesystem
effect alike — is literally identical across any two environments,
including one where the value is absent. -/
theorem extract_archive_outdir_noninterference :
    ∀ (archive : ArchiveInput) (t : List String)
      (outDir1 outDir2 : Option (List String)) (fs : FS),
      extract_archive archive (some t) outDir1 fs =
        extract_archive archive (some t) outDir2 fs :=
  fun _ _ _ _ _ => rfl

/-- C5: Extraction is idempotent with respect to the target root: a
second run of the same archive over the once-extracted state leaves every
file read and every directory unchanged (and, being total in the
reliable-I/O model, succeeds); the final content of every destination
path claimed by a regular-file entry is independent of the prior state —
existing files with different content are overwritten — and a file
present before the run at a path not claimed by the archive keeps its
content. -/
theorem extract_zip_idempotent_overwrite_preserve :
    (∀ (target : List String) (entries : List Entry) (fs : FS)
        (q : List String),
        readFile
            (extract_zip target entries (extract_zip target entries fs)) q =
          readFile (extract_zip target entries fs) q
        ∧ (q ∈ (extract_zip target entries
                (extract_zip target entries fs)).dirs ↔
            q ∈ (extract_zip target entries fs).dirs))
    ∧ (∀ (target : List String) (entries : List Entry) (fs1 fs2 : FS)
        (p : List String), p ∈ regularDests target entries →
        readFile (extract_zip target entries fs1) p =
            readFile (extract_zip target entries fs2) p
        ∧ ∃ c, readFile (extract_zip target entries fs1) p = some c)
    ∧ (∀ (target : List String) (entries : List Entry) (fs : FS)
        (q : List String) (c : String),
        readFile fs q = some c → q ∉ regularDests target entries →
        readFile (extract_zip target entries fs) q = some c) := by
  refine ⟨?_, ?_, ?_⟩
  · intro target entries fs q
    constructor
    · rw [extract_zip_read, extract_zip_read]
      cases hfc : finalContent target q entries <;> simp [hfc]
    · rw [extract_zip_dirs_mem, extract_zip_dirs_mem]
      tauto
  · intro target entries fs1 fs2 p hp
    obtain ⟨c, hc⟩ := regularDests_finalContent target p entries hp
    rw [extract_zip_read, extract_zip_read, hc]
    exact ⟨rfl, c, rfl⟩
  · intro target entries fs q c hread hq
    cases hfc : finalContent target q entries with
    | some c2 =>
      exact absurd (finalContent_mem_regularDests target q entries c2 hfc) hq
    | none => rw [extract_zip_read, hfc]; exact hread

/-- Witness for C5: one archive entry `a` with content "new", run over a
state that already holds `T/a` with content "old" and an unrelated file
`keep`; the claimed path is overwritten and the unrelated file kept. -/
theorem extract_zip_idempotent_overwrite_preserve_witness :
    (readFile
          (extract_zip ["T"] [⟨["a"], .regularFile "new"⟩]
            (extract_zip ["T"] [⟨["a"], .regularFile "new"⟩]
              ⟨[], [(["T", "a"], "old"), (["keep"], "k")]⟩))
          ["T", "a"] =
        readFile
          (extract_zip ["T"] [⟨["a"], .regularFile "new"⟩]
            ⟨[], [(["T", "a"], "old"), (["keep"], "k")]⟩)
          ["T", "a"])
      ∧ (readFile
            (extract_zip ["T"] [⟨["a"], .regularFile "new"⟩]
              ⟨[], [(["T", "a"], "old"), (["keep"], "k")]⟩)
            ["T", "a"] =
          readFile (extract_zip ["T"] [⟨["a"], .regularFile "new"⟩] ⟨[], []⟩)
            ["T", "a"])
      ∧ (readFile
            (extract_zip ["T"] [⟨["a"], .regularFile "new"⟩]
              ⟨[], [(["T", "a"], "old"), (["keep"], "k")]⟩)
            ["keep"] = some "k") :=
  ⟨(extract_zip_idempotent_overwrite_preserve.1 ["T"]
      [⟨["a"], .regularFile "new"⟩]
      ⟨[], [(["T", "a"], "old"), (["keep"], "k")]⟩ ["T", "a"]).1,
    (extract_zip_idempotent_overwrite_preserve.2.1 ["T"]
      [⟨["a"], .regularFile "new"⟩]
      ⟨[], [(["T", "a"], "old"), (["keep"], "k")]⟩ ⟨[], []⟩ ["T", "a"]
      (by decide)).1,
    extract_zip_idempotent_overwrite_preserve.2.2 ["T"]
      [⟨["a"], .regularFile "new"⟩]
      ⟨[], [(["T", "a"], "old"), (["keep"], "k")]⟩ ["keep"] "k" rfl
      (by decide)⟩

/-- C6: For every `Directory` entry, extraction creates every missing
ancestor of the destination path (its parent chain) but does not create
the leaf directory itself: if the leaf did not exist before and no entry
of the sequence claims it as an ancestor (no file or directory is ever
placed under it), the leaf does not exist after extraction. -/
theorem extract_zip_directory_parent_only :
    ∀ (target : List String) (entries : List Entry) (fs : FS) (e : Entry),
      e ∈ entries → e.kind = .directory →
      (∀ p, p ≠ [] → p <+: (target ++ e.name).dropLast →
          p ∈ (extract_zip target entries fs).dirs)
      ∧ ((target ++ e.name) ∉ fs.dirs →
          (∀ e2 ∈ entries, (target ++ e.name) ∉ entryDirs target e2) →
          (target ++ e.name) ∉ (extract_zip target entries fs).dirs) := by
  intro target entries fs e hmem hk
  constructor
  · intro p hne hpre
    rw [extract_zip_dirs_mem]
    refine Or.inr ⟨e, hmem, ?_⟩
    simp only [entryDirs, hk, prefixesOf_mem]
    exact ⟨hne, hpre⟩
  · intro hfs hclaim
    rw [extract_zip_dirs_mem]
    rintro (h | ⟨e2, hmem2, h⟩)
    · exact hfs h
    · exact hclaim e2 hmem2 h

/-- Witness for C6: the single directory entry `d/sub` creates `T` and
`T/d` but not the leaf `T/d/sub`. -/
theorem extract_zip_directory_parent_only_witness :
    (∀ p, p ≠ [] → p <+: ["T", "d"] →
        p ∈ (extract_zip ["T"] [⟨["d", "sub"], .directory⟩] ⟨[], []⟩).dirs)
      ∧ (["T", "d", "sub"] ∉ (FS.mk [] []).dirs →
          (∀ e2 ∈ [Entry.mk ["d", "sub"] .directory],
              ["T", "d", "sub"] ∉ entryDirs ["T"] e2) →
          ["T", "d", "sub"] ∉
            (extract_zip ["T"] [⟨["d", "sub"], .directory⟩] ⟨[], []⟩).dirs) :=
  extract_zip_directory_parent_only ["T"] [⟨["d", "sub"], .directory⟩]
    ⟨[], []⟩ ⟨["d", "sub"], .directory⟩ (List.mem_singleton.mpr rfl) rfl

/-- C7: Entries of kind `Other` (symlinks etc.) are skipped: processing
one is the identity on the filesystem — no file and no directory appears
at its destination — and an entry sequence extracts to exactly the same
state as the sequence with all `Other` entries removed, so their presence
never affects nor fails the extraction call (which is total in the
model). -/
theorem extract_zip_skips_other :
    (∀ (target : List String) (fs : FS) (e : Entry),
        e.kind = .other → extractEntry target fs e = fs)
    ∧ (∀ (target : List String) (entries : List Entry) (fs : FS),
        extract_zip target (entries.filter isMaterialized) fs =
          extract_zip target entries fs) :=
  ⟨extractEntry_other, extract_zip_filter_materialized⟩

/-- Witness for C7: a symlink entry under `T` leaves the filesystem
untouched. -/
theorem extract_zip_skips_other_witness :
    extractEntry ["T"] ⟨[["T"]], [(["T", "f"], "x")]⟩ ⟨["link"], .other⟩ =
      ⟨[["T"]], [(["T", "f"], "x")]⟩ :=
  extract_zip_skips_other.1 ["T"] ⟨[["T"]], [(["T", "f"], "x")]⟩
    ⟨["link"], .other⟩ rfl

/-- C8: `extract_tar_gz` wraps the opened file bytes in the gzip decoder
and `extract_tar` does not, and both delegate the whole tree
reconstruction to the tar-unpack primitive in one call; that primitive
materializes entries exactly as the zip path does, and in particular
every regular-file entry of a duplicate-free tar index ends up at the
target root joined with its relative path with its exact content. -/
theorem tar_delegation_and_parity :
    (∀ (gzDecode : List Nat → List Nat) (tarIndex : List Nat → List Entry)
        (fileBytes : List Nat) (target : List String) (fs : FS),
        extract_tar_gz gzDecode tarIndex fileBytes target fs =
          tarUnpack target (tarIndex (gzDecode fileBytes)) fs)
    ∧ (∀ (tarIndex : List Nat → List Entry) (fileBytes : List Nat)
        (target : List String) (fs : FS),
        extract_tar tarIndex fileBytes target fs =
          tarUnpack target (tarIndex fileBytes) fs)
    ∧ (∀ (target : List String) (entries : List Entry) (fs : FS),
        tarUnpack target entries fs = extract_zip target entries fs)
    ∧ (∀ (target : List String) (entries : List Entry) (fs : FS),
        (regularDests target entries).Nodup →
        ∀ e ∈ entries, ∀ c : String, e.kind = .regularFile c →
          readFile (tarUnpack target entries fs) (target ++ e.name) =
            some c) := by
  refine ⟨fun _ _ _ _ _ => rfl, fun _ _ _ _ => rfl, fun _ _ _ => rfl, ?_⟩
  intro target entries fs hnd e hmem c hk
  show readFile (extract_zip target entries fs) (target ++ e.name) = some c
  rw [extract_zip_read,
    finalContent_of_mem_nodup target entries e c hnd hmem hk]

/-- Witness for C8: the tgz fixture `tgz/compressed.txt` with content
"this works as well" lands at `T/tgz/compressed.txt` with that content. -/
theorem tar_delegation_and_parity_witness :
    readFile
        (tarUnpack ["T"]
          [⟨["tgz", "compressed.txt"], .regularFile "this works as well"⟩]
          ⟨[], []⟩)
        (["T"] ++ ["tgz", "compressed.txt"]) = some "this works as well" :=
  tar_delegation_and_parity.2.2.2 ["T"]
    [⟨["tgz", "compressed.txt"], .regularFile "this works as well"⟩]
    ⟨[], []⟩ (by decide)
    ⟨["tgz", "compressed.txt"], .regularFile "this works as well"⟩
    (List.mem_singleton.mpr rfl) "this works as well" rfl
